import Mathlib

set_option maxHeartbeats 1000000
set_option linter.unusedSectionVars false

/-! Verification of the circuit-decomposition scheduler in
`tutorials/transshipment_problem_oop.py`: the functions `schedule`,
`find_perfect_circuit`, `path_from_schedule` and `jobs_from_path`, together
with a model of the external weighted-graph library (the "Network Oracle")
that the tutorial imports.  Locations are an arbitrary type `V` with
decidable equality; distances are naturals. -/

variable {V : Type} [DecidableEq V] {α : Type _}

/-- Modelled from the spec: the Network Oracle (the external `graph` library as
consumed by the tutorial): the node set, `shortest_path(A, B)` returning
`(distance, path)`, and `distance_from_path(path)` summing edge weights along
a path.  The tutorial imports this class; only its interface is specified. -/
structure Network (V : Type) where
  nodes : List V
  shortest_path : V → V → Nat × List V
  distance_from_path : List V → Nat

/-- Modelled from the spec: the auxiliary directed weighted graph `g` built
inside `find_perfect_circuit` (a fresh `Graph()` with `add_edge`, edge lookup
and `breadth_first_search`), represented as a list of weighted directed
edges in insertion order. -/
structure Graph (V : Type) where
  edges : List (V × V × Nat)

/-- Edge-membership test, modelling the `g[A][B]` lookup (whose `KeyError`
signals an absent edge). -/
def Graph.hasEdge (g : Graph V) (a b : V) : Bool :=
  g.edges.any fun e => e.1 == a && e.2.1 == b

/-- Modelled from the spec: `g.add_edge(A, B, d)`. -/
def Graph.add_edge (g : Graph V) (a b : V) (d : Nat) : Graph V :=
  ⟨g.edges ++ [(a, b, d)]⟩

/-- Successors of `a` in `g`, in edge-insertion order (the breadth-first
discovery order of the model). -/
def Graph.succs (g : Graph V) (a : V) : List V :=
  (g.edges.filter fun e => e.1 == a).map fun e => e.2.1

/-- Modelled from the spec: the loop of `g.breadth_first_search(A, B)` —
unweighted-in-hops traversal, ties broken by discovery order, returning the
found path or `[]` when unreachable.  The queue holds reversed paths, the
head of each being its current node; `visited` marks expanded nodes; the
fuel bounds the number of dequeues (each node is expanded at most once, so
`|edges| + 2` dequeues always suffice). -/
def bfsAux (g : Graph V) (target : V) : Nat → List (List V) → List V → List V
  | 0, _, _ => []
  | _ + 1, [], _ => []
  | fuel + 1, r :: queue, visited =>
    match r with
    | [] => bfsAux g target fuel queue visited
    | c :: _ =>
      if c = target then r.reverse
      else if c ∈ visited then bfsAux g target fuel queue visited
      else bfsAux g target fuel (queue ++ (g.succs c).map fun v => v :: r) (c :: visited)

/-- Modelled from the spec: `g.breadth_first_search(A, B)` returning
`(hop count, path)`, with an empty path when `B` is unreachable from `A`. -/
def Graph.breadth_first_search (g : Graph V) (a b : V) : Nat × List V :=
  let p := bfsAux g b (g.edges.length + 2) [[a]] []
  (p.length - 1, p)

/-- `jobs_from_path(path)` from the source: the list of consecutive pairs
`[(path[i], path[i+1]) for i in range(len(path)-1)]`. -/
def jobs_from_path : List V → List (V × V)
  | a :: b :: rest => (a, b) :: jobs_from_path (b :: rest)
  | _ => []

/-- Loop body of `path_from_schedule`: `last` is the current `path[-1]`; when
the next job's origin `A` differs from it the origin is appended first, then
the destination `B` (and `B` becomes the new `path[-1]`). -/
def pfsAux : List (V × V) → V → List V
  | [], _ => []
  | (a, b) :: rest, last =>
    if a ≠ last then a :: b :: pfsAux rest b else b :: pfsAux rest b

/-- `path_from_schedule(jobs, start)` from the source. -/
def path_from_schedule (jobs : List (V × V)) (start : V) : List V :=
  start :: pfsAux jobs start

/-- The auxiliary-graph construction loop of `find_perfect_circuit` (source
lines 229-235): for each job `(A, B)`, if the lookup `g[A][B]` fails, query
`graph.shortest_path(A, B)` and `g.add_edge(A, B, d)`. -/
def buildG (net : Network V) (jobs : List (V × V)) : Graph V :=
  jobs.foldl
    (fun g j =>
      if g.hasEdge j.1 j.2 then g
      else g.add_edge j.1 j.2 (net.shortest_path j.1 j.2).1)
    ⟨[]⟩

/-- `buildG` instrumented with the list of pairs on which the Network Oracle's
`shortest_path` is queried (exactly the `except KeyError` branch). -/
def buildGT (net : Network V) (jobs : List (V × V)) : Graph V × List (V × V) :=
  jobs.foldl
    (fun gq j =>
      if gq.1.hasEdge j.1 j.2 then gq
      else (gq.1.add_edge j.1 j.2 (net.shortest_path j.1 j.2).1, gq.2 ++ [j]))
    (⟨[]⟩, [])

/-- The weighted edge that `find_perfect_circuit` adds to the auxiliary graph
for a job pair: the pair's endpoints with the Network Oracle's shortest-path
distance between them. -/
def edgeOf (net : Network V) (ab : V × V) : V × V × Nat :=
  (ab.1, ab.2, (net.shortest_path ab.1 ab.2).1)

/-- Order-preserving first-occurrence deduplication, folded from a seed
accumulator (the seed is generalised so the fold can be reasoned about). -/
def dedupFrom (acc : List (V × V)) (jobs : List (V × V)) : List (V × V) :=
  jobs.foldl (fun acc j => if j ∈ acc then acc else acc ++ [j]) acc

/-- The distinct `(origin, destination)` pairs of a job list, first
occurrences in order. -/
def distinctPairs (jobs : List (V × V)) : List (V × V) :=
  dedupFrom [] jobs

/-- `new_starts = [B for A, B in jobs if A == start]` (source line 237). -/
def new_starts_of (start : V) (jobs : List (V × V)) : List V :=
  (jobs.filter fun j => j.1 == start).map fun j => j.2

/-- The candidate loop of `find_perfect_circuit` (source lines 238-242): for
each candidate first step `A`, run `g.breadth_first_search(A, start)`; on the
first truthy (non-empty) path `p` return `[start] + p`; otherwise `[]`. -/
def firstCircuit (g : Graph V) (start : V) : List V → List V
  | [] => []
  | a :: rest =>
    let p := (g.breadth_first_search a start).2
    if p ≠ [] then start :: p else firstCircuit g start rest

/-- `find_perfect_circuit(graph, start, jobs)` from the source. -/
def find_perfect_circuit (net : Network V) (start : V) (jobs : List (V × V)) :
    List V :=
  firstCircuit (buildG net jobs) start (new_starts_of start jobs)

/-- All ways to pick one element of a list together with the remaining
elements in order, the picked element ranging over positions left to right —
the head-choice order of `itertools.permutations`. -/
def removeEach : List α → List (α × List α)
  | [] => []
  | x :: xs => (x, xs) :: (removeEach xs).map fun p => (p.1, x :: p.2)

/-- Permutation enumeration in `itertools.permutations` order, with the list
length as structural fuel. -/
def permsLen : Nat → List α → List (List α)
  | 0, _ => [[]]
  | n + 1, l => (removeEach l).flatMap fun p => (permsLen n p.2).map fun r => p.1 :: r

/-- `itertools.permutations(l, len(l))`, in enumeration order. -/
def perms (l : List α) : List (List α) :=
  permsLen l.length l

/-- One step of the permutation fold in `schedule` (source lines 184-189):
the accumulator carries `(shortest_path, shortest_distance)`, updated when
`distance < shortest_distance`; the distance `none` models the initial
`float('inf')`. -/
def permStep (net : Network V) (start : V) (acc : List V × Option Nat)
    (q : List (V × V)) : List V × Option Nat :=
  let path := path_from_schedule q start
  let d := net.distance_from_path path
  match acc.2 with
  | none => (path, some d)
  | some sd => if d < sd then (path, some d) else acc

/-- The permutation-fallback selection in `schedule` (source lines 182-189):
the `shortest_path` left after folding over all permutations of the pool. -/
def bestPermPath (net : Network V) (start : V) (pool : List (V × V)) : List V :=
  ((perms pool).foldl (permStep net start) ([], none)).1

/-- The consumption loop of `schedule` (source lines 192-195): for each job of
the winning sequence, if it is still pending, remove its first occurrence
from the pool (`list.remove`) and append it to the schedule. -/
def consume :
    List (V × V) → List (V × V) → List (V × V) → List (V × V) × List (V × V)
  | [], pool, sched => (pool, sched)
  | j :: rest, pool, sched =>
    if j ∈ pool then consume rest (pool.erase j) (sched ++ [j])
    else consume rest pool sched

/-- One iteration of the while-loop in `schedule` (source lines 178-195): try
`find_perfect_circuit`; on a truthy (non-empty) circuit take its job
sequence, otherwise the permutation fallback's; then run the consumption
loop. -/
def scheduleStep (net : Network V) (start : V) (pool sched : List (V × V)) :
    List (V × V) × List (V × V) :=
  let circuit_path := find_perfect_circuit net start pool
  if circuit_path ≠ [] then consume (jobs_from_path circuit_path) pool sched
  else consume (jobs_from_path (bestPermPath net start pool)) pool sched

/-- The while-loop of `schedule`, with fuel bounding the number of iterations;
`none` means the fuel was exhausted with jobs still pending. -/
def scheduleAux (net : Network V) (start : V) :
    Nat → List (V × V) → List (V × V) → Option (List (V × V))
  | _, [], sched => some sched
  | 0, _ :: _, _ => none
  | fuel + 1, j :: pool, sched =>
    let s := scheduleStep net start (j :: pool) sched
    scheduleAux net start fuel s.1 s.2

/-- `schedule(graph, start, jobs)` from the source, run with fuel `|jobs|`
(the spec's claimed iteration bound).  The initial pool is the value of the
shallow copy `jobs_to_plan = jobs[:]`. -/
def schedule (net : Network V) (start : V) (jobs : List (V × V)) :
    Option (List (V × V)) :=
  scheduleAux net start jobs.length jobs []

/-- The mutable objects of a `schedule` call: the caller's list `jobs`, the
working copy `jobs_to_plan` created by `jobs[:]` on source line 176 (a
distinct list object, so `jobs_to_plan.remove` does not touch the caller's
list), and `new_schedule`. -/
structure PyState (V : Type) where
  jobs_caller : List (V × V)
  jobs_to_plan : List (V × V)
  new_schedule : List (V × V)

/-- The while-loop of `schedule` acting on all three list objects.  Only
`jobs_to_plan` and `new_schedule` are updated, because the copy on source
line 176 makes `jobs_to_plan` a separate object from the caller's list. -/
def scheduleTrackedAux (net : Network V) (start : V) :
    Nat → PyState V → Option (PyState V)
  | _, ⟨caller, [], sched⟩ => some ⟨caller, [], sched⟩
  | 0, ⟨_, _ :: _, _⟩ => none
  | fuel + 1, ⟨caller, j :: pool, sched⟩ =>
    let s := scheduleStep net start (j :: pool) sched
    scheduleTrackedAux net start fuel ⟨caller, s.1, s.2⟩

/-- `schedule(graph, start, jobs)` with the caller's list tracked alongside;
initially `jobs_to_plan` holds the same elements as `jobs` (the copy). -/
def scheduleTracked (net : Network V) (start : V) (jobs : List (V × V)) :
    Option (PyState V) :=
  scheduleTrackedAux net start jobs.length ⟨jobs, jobs, []⟩

/-- Follows the spec's words, for comparison with the source's
`path_from_schedule` (refinement check): walking the ordering, "inserting a
shortest-path connector whenever the next Leg's origin does not equal the
current Path's last Location" — the connector being the Network Oracle's
shortest-path node sequence between the last location and that origin —
before appending the job's destination. -/
def pfsSpecAux (net : Network V) : List (V × V) → V → List V
  | [], _ => []
  | (a, b) :: rest, last =>
    if a ≠ last then (net.shortest_path last a).2.tail ++ b :: pfsSpecAux net rest b
    else b :: pfsSpecAux net rest b

/-- Follows the spec's words: the implied travel path of an ordering, with
shortest-path connectors expanded into their node sequences. -/
def path_from_schedule_spec (net : Network V) (jobs : List (V × V)) (start : V) :
    List V :=
  start :: pfsSpecAux net jobs start

/-- Modelled from the spec: Example 1's network `{A, B, C}`, fully connected
with unit-weight edges, encoded with nodes `0, 1, 2`: shortest paths are the
direct hops. -/
def spUnit3 (a b : Nat) : Nat × List Nat :=
  if a = b then (0, [a]) else (1, [a, b])

/-- Unit edge weight on the complete three-node network (0 on a self-pair;
self-pairs do not occur in the paths evaluated below). -/
def wUnit3 (a b : Nat) : Nat :=
  if a = b then 0 else 1

/-- Modelled from the spec: `distance_from_path` on the complete unit-weight
three-node network — the sum of the weights of the consecutive hops. -/
def dfpUnit3 (p : List Nat) : Nat :=
  (jobs_from_path p).foldl (fun s e => s + wUnit3 e.1 e.2) 0

/-- The concrete Network Oracle of the spec's Example 1. -/
def net3 : Network Nat :=
  ⟨[0, 1, 2], spUnit3, dfpUnit3⟩

/-- Example 1's legs `[(A,B), (A,C), (B,A), (C,A)]` as pairs over `0, 1, 2`. -/
def jobs4 : List (Nat × Nat) :=
  [(0, 1), (0, 2), (1, 0), (2, 0)]

/-- Modelled from the spec: a three-node line network `0 — 1 — 2` (both
directions, unit weights), whose shortest path between `0` and `2` passes
through `1`. -/
def spLine (a b : Nat) : Nat × List Nat :=
  if a = b then (0, [a])
  else if (a = 0 ∧ b = 1) ∨ (a = 1 ∧ b = 0) ∨ (a = 1 ∧ b = 2) ∨ (a = 2 ∧ b = 1) then
    (1, [a, b])
  else if a = 0 ∧ b = 2 then (2, [0, 1, 2])
  else if a = 2 ∧ b = 0 then (2, [2, 1, 0])
  else (0, [])

/-- Unit edge weight on the line network (0 on pairs that are not edges; such
pairs are not evaluated below). -/
def wLine (a b : Nat) : Nat :=
  if (a = 0 ∧ b = 1) ∨ (a = 1 ∧ b = 0) ∨ (a = 1 ∧ b = 2) ∨ (a = 2 ∧ b = 1) then 1
  else 0

/-- Modelled from the spec: `distance_from_path` on the line network. -/
def dfpLine (p : List Nat) : Nat :=
  (jobs_from_path p).foldl (fun s e => s + wLine e.1 e.2) 0

/-- The concrete Network Oracle of the line network. -/
def netLine : Network Nat :=
  ⟨[0, 1, 2], spLine, dfpLine⟩

/-! ### Helper lemmas: the auxiliary graph of `find_perfect_circuit` -/

theorem Graph.hasEdge_iff_exists (g : Graph V) (a b : V) :
    g.hasEdge a b = true ↔ ∃ d, (a, b, d) ∈ g.edges := by
  simp only [Graph.hasEdge, List.any_eq_true, Bool.and_eq_true, beq_iff_eq]
  constructor
  · rintro ⟨⟨x, y, d⟩, hm, hx, hy⟩
    subst hx; subst hy
    exact ⟨d, hm⟩
  · rintro ⟨d, hm⟩
    exact ⟨(a, b, d), hm, rfl, rfl⟩

theorem Graph.hasEdge_of_mem_succs (g : Graph V) {c v : V} (h : v ∈ g.succs c) :
    g.hasEdge c v = true := by
  simp only [Graph.succs, List.mem_map, List.mem_filter, beq_iff_eq] at h
  obtain ⟨e, ⟨hm, he⟩, hv⟩ := h
  simp only [Graph.hasEdge, List.any_eq_true, Bool.and_eq_true, beq_iff_eq]
  exact ⟨e, hm, he, hv⟩

theorem hasEdge_mk_map (f : V × V → V × V × Nat)
    (hf : ∀ ab, (f ab).1 = ab.1 ∧ (f ab).2.1 = ab.2) (qs : List (V × V)) (a b : V) :
    Graph.hasEdge ⟨qs.map f⟩ a b = true ↔ (a, b) ∈ qs := by
  simp only [Graph.hasEdge, List.any_eq_true, List.mem_map, Bool.and_eq_true, beq_iff_eq]
  constructor
  · rintro ⟨e, ⟨ab, hm, rfl⟩, hx, hy⟩
    have h1 := (hf ab).1
    have h2 := (hf ab).2
    have : ab = (a, b) := by
      rw [h1] at hx
      rw [h2] at hy
      exact Prod.ext hx hy
    rwa [this] at hm
  · intro hm
    exact ⟨f (a, b), ⟨(a, b), hm, rfl⟩, (hf (a, b)).1, (hf (a, b)).2⟩

theorem edgeOf_fst (net : Network V) (ab : V × V) :
    (edgeOf net ab).1 = ab.1 ∧ (edgeOf net ab).2.1 = ab.2 :=
  ⟨rfl, rfl⟩

theorem dedupFrom_nil (acc : List (V × V)) : dedupFrom acc [] = acc := rfl

theorem dedupFrom_cons (acc : List (V × V)) (j : V × V) (rest : List (V × V)) :
    dedupFrom acc (j :: rest)
      = dedupFrom (if j ∈ acc then acc else acc ++ [j]) rest := rfl

theorem mem_dedupFrom (acc jobs : List (V × V)) (x : V × V) :
    x ∈ dedupFrom acc jobs ↔ x ∈ acc ∨ x ∈ jobs := by
  induction jobs generalizing acc with
  | nil => simp [dedupFrom_nil]
  | cons j rest ih =>
    rw [dedupFrom_cons]
    by_cases hj : j ∈ acc
    · rw [if_pos hj, ih]
      constructor
      · rintro (h | h)
        · exact Or.inl h
        · exact Or.inr (List.mem_cons_of_mem _ h)
      · rintro (h | h)
        · exact Or.inl h
        · rcases List.mem_cons.mp h with rfl | h
          · exact Or.inl hj
          · exact Or.inr h
    · rw [if_neg hj, ih]
      simp only [List.mem_append, List.mem_singleton, List.mem_cons]
      tauto

theorem nodup_dedupFrom (acc jobs : List (V × V)) (h : acc.Nodup) :
    (dedupFrom acc jobs).Nodup := by
  induction jobs generalizing acc with
  | nil => exact h
  | cons j rest ih =>
    rw [dedupFrom_cons]
    by_cases hj : j ∈ acc
    · rw [if_pos hj]; exact ih acc h
    · rw [if_neg hj]
      refine ih _ ?_
      simp only [List.nodup_append, List.nodup_cons, List.nodup_nil, and_true,
        List.disjoint_singleton]
      exact ⟨h, by simpa using hj⟩

theorem buildGT_fold (net : Network V) (jobs : List (V × V)) :
    ∀ qs : List (V × V),
      List.foldl
        (fun (gq : Graph V × List (V × V)) (j : V × V) =>
          if gq.1.hasEdge j.1 j.2 then gq
          else (gq.1.add_edge j.1 j.2 (net.shortest_path j.1 j.2).1, gq.2 ++ [j]))
        (⟨qs.map (edgeOf net)⟩, qs) jobs
      = (⟨(dedupFrom qs jobs).map (edgeOf net)⟩, dedupFrom qs jobs) := by
  induction jobs with
  | nil => intro qs; simp [dedupFrom_nil]
  | cons j rest ih =>
    intro qs
    rw [List.foldl_cons, dedupFrom_cons]
    have hedge : (Graph.mk (qs.map (edgeOf net))).hasEdge j.1 j.2 = true ↔ j ∈ qs := by
      have h := hasEdge_mk_map (edgeOf net) (edgeOf_fst net) qs j.1 j.2
      simpa using h
    by_cases hj : j ∈ qs
    · rw [if_pos hj]
      simp only [hedge.mpr hj, if_true]
      exact ih qs
    · rw [if_neg hj]
      have hne : ¬((Graph.mk (qs.map (edgeOf net))).hasEdge j.1 j.2 = true) := by
        intro h
        exact hj (hedge.mp h)
      rw [if_neg hne]
      have hadd : (Graph.mk (qs.map (edgeOf net))).add_edge j.1 j.2
          (net.shortest_path j.1 j.2).1 = Graph.mk ((qs ++ [j]).map (edgeOf net)) := by
        simp [Graph.add_edge, edgeOf]
      rw [hadd]
      exact ih (qs ++ [j])

theorem buildGT_eq (net : Network V) (jobs : List (V × V)) :
    buildGT net jobs
      = (⟨(distinctPairs jobs).map (edgeOf net)⟩, distinctPairs jobs) := by
  have h := buildGT_fold net jobs []
  simpa [buildGT, distinctPairs] using h

theorem buildG_eq_fst (net : Network V) (jobs : List (V × V)) :
    buildG net jobs = (buildGT net jobs).1 := by
  suffices h : ∀ (l : List (V × V)) (g : Graph V) (qs : List (V × V)),
      (List.foldl
        (fun (gq : Graph V × List (V × V)) (j : V × V) =>
          if gq.1.hasEdge j.1 j.2 then gq
          else (gq.1.add_edge j.1 j.2 (net.shortest_path j.1 j.2).1, gq.2 ++ [j]))
        (g, qs) l).1
      = List.foldl
          (fun (g : Graph V) (j : V × V) =>
            if g.hasEdge j.1 j.2 then g
            else g.add_edge j.1 j.2 (net.shortest_path j.1 j.2).1)
          g l by
    exact (h jobs ⟨[]⟩ []).symm
  intro l
  induction l with
  | nil => intro g qs; rfl
  | cons j rest ih =>
    intro g qs
    rw [List.foldl_cons, List.foldl_cons]
    by_cases hj : g.hasEdge j.1 j.2 = true
    · rw [if_pos hj, if_pos hj]
      exact ih g qs
    · rw [if_neg hj, if_neg hj]
      exact ih _ _

theorem buildG_edges (net : Network V) (jobs : List (V × V)) :
    (buildG net jobs).edges = (distinctPairs jobs).map (edgeOf net) := by
  rw [buildG_eq_fst, buildGT_eq]

theorem mem_distinctPairs (jobs : List (V × V)) (x : V × V) :
    x ∈ distinctPairs jobs ↔ x ∈ jobs := by
  rw [distinctPairs, mem_dedupFrom]
  simp

theorem buildG_hasEdge_iff (net : Network V) (jobs : List (V × V)) (a b : V) :
    (buildG net jobs).hasEdge a b = true ↔ (a, b) ∈ jobs := by
  have hg : buildG net jobs = ⟨(distinctPairs jobs).map (edgeOf net)⟩ := by
    cases hG : buildG net jobs with
    | mk es => simpa [hG] using buildG_edges net jobs
  rw [hg, hasEdge_mk_map (edgeOf net) (edgeOf_fst net), mem_distinctPairs]

/-! ### Helper lemmas: breadth-first search -/

theorem bfsAux_spec (g : Graph V) (target src : V) :
    ∀ (fuel : Nat) (queue : List (List V)) (visited : List V),
      (∀ r ∈ queue, r ≠ [] ∧ r.getLast? = some src ∧
        List.Chain' (fun x y => g.hasEdge x y = true) r.reverse) →
      bfsAux g target fuel queue visited ≠ [] →
      (bfsAux g target fuel queue visited).head? = some src ∧
      (bfsAux g target fuel queue visited).getLast? = some target ∧
      List.Chain' (fun x y => g.hasEdge x y = true) (bfsAux g target fuel queue visited) := by
  intro fuel
  induction fuel with
  | zero =>
    intro queue visited _ hne
    simp [bfsAux] at hne
  | succ fuel ih =>
    intro queue visited hinv hne
    cases queue with
    | nil => simp [bfsAux] at hne
    | cons r rest =>
      obtain ⟨hr, hlast, hchain⟩ := hinv r (List.mem_cons_self r rest)
      cases r with
      | nil => exact absurd rfl hr
      | cons c r' =>
        by_cases hct : c = target
        · have hres : bfsAux g target (fuel + 1) ((c :: r') :: rest) visited
              = (c :: r').reverse := by
            simp [bfsAux, hct]
          rw [hres]
          refine ⟨?_, ?_, ?_⟩
          · rw [List.head?_reverse]
            exact hlast
          · rw [List.getLast?_reverse]
            simp [hct]
          · exact hchain
        · by_cases hcv : c ∈ visited
          · have hres : bfsAux g target (fuel + 1) ((c :: r') :: rest) visited
                = bfsAux g target fuel rest visited := by
              simp [bfsAux, hct, hcv]
            rw [hres] at hne ⊢
            exact ih rest visited
              (fun q hq => hinv q (List.mem_cons_of_mem _ hq)) hne
          · have hres : bfsAux g target (fuel + 1) ((c :: r') :: rest) visited
                = bfsAux g target fuel
                    (rest ++ (g.succs c).map fun v => v :: c :: r') (c :: visited) := by
              simp [bfsAux, hct, hcv]
            rw [hres] at hne ⊢
            refine ih _ _ ?_ hne
            intro q hq
            rcases List.mem_append.mp hq with hq | hq
            · exact hinv q (List.mem_cons_of_mem _ hq)
            · obtain ⟨v, hv, rfl⟩ := List.mem_map.mp hq
              refine ⟨by simp, ?_, ?_⟩
              · rw [List.getLast?_cons_cons]
                exact hlast
              · have : (v :: c :: r').reverse = (c :: r').reverse ++ [v] := by
                  simp
                rw [this, List.chain'_append]
                refine ⟨hchain, List.chain'_singleton v, ?_⟩
                intro x hx y hy
                rw [List.getLast?_reverse] at hx
                simp only [List.head?_cons, Option.mem_def, Option.some.injEq] at hx hy
                subst hx; subst hy
                exact g.hasEdge_of_mem_succs hv

theorem bfs_result_spec (g : Graph V) (a b : V)
    (h : (g.breadth_first_search a b).2 ≠ []) :
    (g.breadth_first_search a b).2.head? = some a ∧
    (g.breadth_first_search a b).2.getLast? = some b ∧
    List.Chain' (fun x y => g.hasEdge x y = true) (g.breadth_first_search a b).2 := by
  have hq : ∀ r ∈ [[a]], r ≠ [] ∧ r.getLast? = some a ∧
      List.Chain' (fun x y => g.hasEdge x y = true) r.reverse := by
    intro r hr
    simp only [List.mem_singleton] at hr
    subst hr
    exact ⟨by simp, by simp, by simp⟩
  have hbfs : (g.breadth_first_search a b).2
      = bfsAux g b (g.edges.length + 2) [[a]] [] := rfl
  rw [hbfs] at h ⊢
  exact bfsAux_spec g b a (g.edges.length + 2) [[a]] [] hq h

/-! ### Helper lemmas: paths and their job sequences -/

theorem jobs_from_path_nil : jobs_from_path ([] : List V) = [] := rfl

theorem jobs_from_path_single (a : V) : jobs_from_path [a] = [] := rfl

theorem jobs_from_path_cons_cons (a b : V) (rest : List V) :
    jobs_from_path (a :: b :: rest) = (a, b) :: jobs_from_path (b :: rest) := rfl

theorem chain'_pairs {R : V → V → Prop} :
    ∀ l : List V, List.Chain' R l → ∀ e ∈ jobs_from_path l, R e.1 e.2 := by
  intro l
  induction l with
  | nil => intro _ e he; simp [jobs_from_path_nil] at he
  | cons a t ih =>
    intro hch e he
    cases t with
    | nil => simp [jobs_from_path_single] at he
    | cons b rest =>
      rw [jobs_from_path_cons_cons] at he
      rcases List.mem_cons.mp he with rfl | he
      · exact (List.chain'_cons.mp hch).1
      · exact ih (List.chain'_cons.mp hch).2 e he

/-! ### Helper lemmas: `find_perfect_circuit` -/

theorem mem_new_starts {start : V} {jobs : List (V × V)} {c : V}
    (h : c ∈ new_starts_of start jobs) : (start, c) ∈ jobs := by
  simp only [new_starts_of, List.mem_map, List.mem_filter, beq_iff_eq] at h
  obtain ⟨j, ⟨hm, h1⟩, h2⟩ := h
  cases j with
  | mk x y =>
    simp only at h1 h2
    subst h1; subst h2
    exact hm

theorem new_starts_eq_nil {start : V} {jobs : List (V × V)}
    (h : ∀ j ∈ jobs, j.1 ≠ start) : new_starts_of start jobs = [] := by
  have : jobs.filter (fun j => j.1 == start) = [] := by
    rw [List.filter_eq_nil_iff]
    intro j hj
    simpa using h j hj
  simp [new_starts_of, this]

theorem firstCircuit_cons (g : Graph V) (start a : V) (rest : List V) :
    firstCircuit g start (a :: rest)
      = if (g.breadth_first_search a start).2 ≠ []
        then start :: (g.breadth_first_search a start).2
        else firstCircuit g start rest := rfl

theorem firstCircuit_spec (g : Graph V) (start : V) :
    ∀ cands : List V, firstCircuit g start cands ≠ [] →
      ∃ a ∈ cands, (g.breadth_first_search a start).2 ≠ [] ∧
        firstCircuit g start cands = start :: (g.breadth_first_search a start).2 := by
  intro cands
  induction cands with
  | nil => intro h; exact absurd rfl h
  | cons a rest ih =>
    intro h
    rw [firstCircuit_cons] at h ⊢
    by_cases hp : (g.breadth_first_search a start).2 ≠ []
    · exact ⟨a, List.mem_cons_self a rest, hp, by rw [if_pos hp]⟩
    · rw [if_neg hp] at h ⊢
      obtain ⟨a', ha', hp', heq⟩ := ih h
      exact ⟨a', List.mem_cons_of_mem _ ha', hp', heq⟩

theorem firstCircuit_eq_nil (g : Graph V) (start : V) :
    ∀ cands : List V, (∀ a ∈ cands, (g.breadth_first_search a start).2 = []) →
      firstCircuit g start cands = [] := by
  intro cands
  induction cands with
  | nil => intro _; rfl
  | cons a rest ih =>
    intro h
    rw [firstCircuit_cons]
    have ha : (g.breadth_first_search a start).2 = [] := h a (List.mem_cons_self a rest)
    rw [if_neg (by simpa using ha)]
    exact ih fun a' ha' => h a' (List.mem_cons_of_mem _ ha')

theorem fpc_shape (net : Network V) (start : V) (jobs : List (V × V))
    (h : find_perfect_circuit net start jobs ≠ []) :
    ∃ c p, find_perfect_circuit net start jobs = start :: p ∧ p ≠ [] ∧
      p.head? = some c ∧ (start, c) ∈ jobs ∧ p.getLast? = some start ∧
      ∀ e ∈ jobs_from_path (start :: p), e ∈ jobs := by
  rw [find_perfect_circuit] at h ⊢
  obtain ⟨a, ha, hne, heq⟩ := firstCircuit_spec (buildG net jobs) start _ h
  obtain ⟨hhead, hlast, hchain⟩ := bfs_result_spec (buildG net jobs) a start hne
  refine ⟨a, (buildG net jobs).breadth_first_search a start |>.2, heq, hne, hhead,
    mem_new_starts ha, hlast, ?_⟩
  obtain ⟨hd, tl, hp⟩ := List.exists_cons_of_ne_nil hne
  have hhd : hd = a := by
    rw [hp] at hhead
    simpa using hhead
  subst hhd
  intro e he
  rw [hp, jobs_from_path_cons_cons] at he
  rcases List.mem_cons.mp he with rfl | he
  · exact mem_new_starts ha
  · have hch : List.Chain' (fun x y => (buildG net jobs).hasEdge x y = true) (hd :: tl) := by
      rw [hp] at hchain
      exact hchain
    have := chain'_pairs (hd :: tl) hch e he
    exact (buildG_hasEdge_iff net jobs e.1 e.2).mp this

/-! ### Helper lemmas: the consumption loop -/

theorem perm_cons_erase_beq {β : Type} [BEq β] [LawfulBEq β] {l : List β} {a : β}
    (h : a ∈ l) : l.Perm (a :: l.erase a) := by
  induction l with
  | nil => cases h
  | cons b bs ih =>
    rw [List.erase_cons]
    by_cases hba : b = a
    · subst hba
      rw [if_pos (by simp)]
    · rw [if_neg (by simpa using hba)]
      have hab : a ∈ bs := by
        rcases List.mem_cons.mp h with h1 | h1
        · exact absurd h1.symm hba
        · exact h1
      exact ((ih hab).cons b).trans (List.Perm.swap a b (bs.erase a))

theorem coe_cons_erase {β : Type} [BEq β] [LawfulBEq β] {l : List β} {a : β}
    (h : a ∈ l) :
    (l : Multiset β) = a ::ₘ ((l.erase a : List β) : Multiset β) := by
  have hp : l.Perm (a :: l.erase a) := perm_cons_erase_beq h
  have h1 : ((l : List β) : Multiset β) = ((a :: l.erase a : List β) : Multiset β) :=
    Multiset.coe_eq_coe.mpr hp
  rw [h1]
  exact (Multiset.cons_coe _ _).symm

theorem consume_nil (pool sched : List (V × V)) :
    consume [] pool sched = (pool, sched) := rfl

theorem consume_cons (j : V × V) (rest pool sched : List (V × V)) :
    consume (j :: rest) pool sched
      = if j ∈ pool then consume rest (pool.erase j) (sched ++ [j])
        else consume rest pool sched := rfl

theorem consume_union (seq : List (V × V)) :
    ∀ pool sched : List (V × V),
      ((consume seq pool sched).1 : Multiset (V × V))
          + ((consume seq pool sched).2 : Multiset (V × V))
        = (pool : Multiset (V × V)) + (sched : Multiset (V × V)) := by
  induction seq with
  | nil => intro pool sched; rfl
  | cons j rest ih =>
    intro pool sched
    rw [consume_cons]
    by_cases hj : j ∈ pool
    · rw [if_pos hj, ih]
      have hpool : (pool : Multiset (V × V))
          = j ::ₘ ((pool.erase j : List (V × V)) : Multiset (V × V)) :=
        coe_cons_erase hj
      have hsched : ((sched ++ [j] : List (V × V)) : Multiset (V × V))
          = (sched : Multiset (V × V)) + {j} := by
        rw [← Multiset.coe_add, Multiset.coe_singleton]
      rw [hpool, hsched, ← Multiset.singleton_add]
      abel
    · rw [if_neg hj]
      exact ih pool sched

theorem consume_pool_length_le (seq : List (V × V)) :
    ∀ pool sched : List (V × V),
      (consume seq pool sched).1.length ≤ pool.length := by
  induction seq with
  | nil => intro pool sched; exact le_refl _
  | cons j rest ih =>
    intro pool sched
    rw [consume_cons]
    by_cases hj : j ∈ pool
    · rw [if_pos hj]
      calc (consume rest (pool.erase j) (sched ++ [j])).1.length
          ≤ (pool.erase j).length := ih _ _
        _ ≤ pool.length := List.length_erase_le _ _
    · rw [if_neg hj]
      exact ih pool sched

theorem consume_pool_lt (j : V × V) (rest pool sched : List (V × V)) (hj : j ∈ pool) :
    (consume (j :: rest) pool sched).1.length < pool.length := by
  rw [consume_cons, if_pos hj]
  have h1 := consume_pool_length_le rest (pool.erase j) (sched ++ [j])
  have h2 : (pool.erase j).length = pool.length - 1 := List.length_erase_of_mem hj
  have h3 : 0 < pool.length := List.length_pos.mpr (List.ne_nil_of_mem hj)
  omega

theorem consume_empties (seq : List (V × V)) :
    ∀ pool sched : List (V × V),
      (pool : Multiset (V × V)) ≤ (seq : Multiset (V × V)) →
      (consume seq pool sched).1 = [] := by
  induction seq with
  | nil =>
    intro pool sched h
    have hz : (pool : Multiset (V × V)) = 0 := le_antisymm h (Multiset.zero_le _)
    have hp : pool = [] := by rwa [Multiset.coe_eq_zero] at hz
    rw [consume_nil, hp]
  | cons j rest ih =>
    intro pool sched h
    rw [← Multiset.cons_coe] at h
    rw [consume_cons]
    by_cases hj : j ∈ pool
    · rw [if_pos hj]
      refine ih _ _ ?_
      rw [coe_cons_erase hj] at h
      exact (Multiset.cons_le_cons_iff j).mp h
    · rw [if_neg hj]
      refine ih _ _ ?_
      rw [Multiset.le_iff_count] at h ⊢
      intro b
      have hb := h b
      rw [Multiset.count_cons] at hb
      by_cases hbj : b = j
      · subst hbj
        have hz : Multiset.count b (pool : Multiset (V × V)) = 0 := by
          rw [Multiset.count_eq_zero]
          simpa [Multiset.mem_coe] using hj
        rw [hz]
        exact Nat.zero_le _
      · simpa [hbj] using hb

/-! ### Helper lemmas: `path_from_schedule` -/

theorem pfsAux_cons (a b last : V) (rest : List (V × V)) :
    pfsAux ((a, b) :: rest) last
      = if a ≠ last then a :: b :: pfsAux rest b else b :: pfsAux rest b := rfl

theorem jobs_le_pairs (jobs : List (V × V)) :
    ∀ last : V,
      (jobs : Multiset (V × V))
        ≤ (jobs_from_path (last :: pfsAux jobs last) : Multiset (V × V)) := by
  induction jobs with
  | nil =>
    intro last
    simp [pfsAux, jobs_from_path_single]
  | cons j rest ih =>
    intro last
    obtain ⟨a, b⟩ := j
    rw [pfsAux_cons]
    by_cases h : a = last
    · rw [if_neg (by simpa using h)]
      rw [jobs_from_path_cons_cons]
      rw [← Multiset.cons_coe, ← Multiset.cons_coe]
      subst h
      exact Multiset.cons_le_cons _ (ih b)
    · rw [if_pos h]
      rw [jobs_from_path_cons_cons, jobs_from_path_cons_cons]
      rw [← Multiset.cons_coe, ← Multiset.cons_coe, ← Multiset.cons_coe]
      refine le_trans (Multiset.cons_le_cons _ (ih b)) ?_
      exact Multiset.le_cons_self _ _

theorem mem_pfs (jobs : List (V × V)) :
    ∀ (last x : V), x ∈ last :: pfsAux jobs last →
      x = last ∨ ∃ j ∈ jobs, x = j.1 ∨ x = j.2 := by
  induction jobs with
  | nil =>
    intro last x hx
    simp only [pfsAux, List.mem_singleton] at hx
    exact Or.inl hx
  | cons j rest ih =>
    intro last x hx
    obtain ⟨a, b⟩ := j
    rw [pfsAux_cons] at hx
    by_cases h : a = last
    · rw [if_neg (by simpa using h)] at hx
      rcases List.mem_cons.mp hx with rfl | hx
      · exact Or.inl rfl
      · rcases ih b x hx with rfl | ⟨j', hj', hx⟩
        · exact Or.inr ⟨(a, x), List.mem_cons_self _ _, Or.inr rfl⟩
        · exact Or.inr ⟨j', List.mem_cons_of_mem _ hj', hx⟩
    · rw [if_pos h] at hx
      rcases List.mem_cons.mp hx with rfl | hx
      · exact Or.inl rfl
      · rcases List.mem_cons.mp hx with rfl | hx
        · exact Or.inr ⟨(x, b), List.mem_cons_self _ _, Or.inl rfl⟩
        · rcases ih b x hx with rfl | ⟨j', hj', hx⟩
          · exact Or.inr ⟨(a, x), List.mem_cons_self _ _, Or.inr rfl⟩
          · exact Or.inr ⟨j', List.mem_cons_of_mem _ hj', hx⟩

/-! ### Helper lemmas: permutation enumeration -/

theorem removeEach_perm : ∀ (l : List α) (x : α) (ys : List α),
    (x, ys) ∈ removeEach l → (x :: ys).Perm l := by
  intro l
  induction l with
  | nil => intro x ys h; simp [removeEach] at h
  | cons a as ih =>
    intro x ys h
    rw [removeEach] at h
    rcases List.mem_cons.mp h with heq | hmem
    · rw [Prod.mk.injEq] at heq
      obtain ⟨rfl, rfl⟩ := heq
      exact List.Perm.refl _
    · obtain ⟨⟨x', ys'⟩, hmem', heq⟩ := List.mem_map.mp hmem
      simp only [Prod.mk.injEq] at heq
      obtain ⟨rfl, rfl⟩ := heq
      have hperm := ih x' ys' hmem'
      exact (List.Perm.swap a x' ys').trans (hperm.cons a)

theorem permsLen_sound : ∀ (n : Nat) (l q : List α),
    l.length = n → q ∈ permsLen n l → q.Perm l := by
  intro n
  induction n with
  | zero =>
    intro l q hlen hq
    simp only [permsLen, List.mem_singleton] at hq
    subst hq
    have : l = [] := List.length_eq_zero.mp hlen
    subst this
    exact List.Perm.refl _
  | succ n ih =>
    intro l q hlen hq
    rw [permsLen, List.mem_flatMap] at hq
    obtain ⟨⟨x, ys⟩, hmem, hq⟩ := hq
    obtain ⟨r, hr, rfl⟩ := List.mem_map.mp hq
    have hperm : (x :: ys).Perm l := removeEach_perm l x ys hmem
    have hyslen : ys.length = n := by
      have hl := hperm.length_eq
      simp only [List.length_cons] at hl
      omega
    exact ((ih ys r hyslen hr).cons x).trans hperm

theorem perms_sound (l q : List α) (h : q ∈ perms l) : q.Perm l :=
  permsLen_sound l.length l q rfl h

theorem mem_removeEach_self [DecidableEq α] :
    ∀ (l : List α) (x : α), x ∈ l → (x, l.erase x) ∈ removeEach l := by
  intro l
  induction l with
  | nil => intro x hx; simp at hx
  | cons a as ih =>
    intro x hx
    by_cases hax : a = x
    · subst hax
      rw [List.erase_cons_head, removeEach]
      exact List.mem_cons_self _ _
    · have hxas : x ∈ as := by
        rcases List.mem_cons.mp hx with rfl | h
        · exact absurd rfl hax
        · exact h
      have herase : (a :: as).erase x = a :: as.erase x := by
        rw [List.erase_cons]
        rw [if_neg (by simpa using hax)]
      rw [herase, removeEach]
      refine List.mem_cons_of_mem _ ?_
      rw [List.mem_map]
      exact ⟨(x, as.erase x), ih x hxas, rfl⟩

theorem mem_perms_of_perm [DecidableEq α] :
    ∀ (q l : List α), q.Perm l → q ∈ perms l := by
  intro q
  induction q with
  | nil =>
    intro l h
    have hlen := h.length_eq
    simp only [List.length_nil] at hlen
    have : l = [] := List.length_eq_zero.mp hlen.symm
    subst this
    simp [perms, permsLen]
  | cons x q' ih =>
    intro l h
    have hx : x ∈ l := h.subset (List.mem_cons_self _ _)
    have hq' : q'.Perm (l.erase x) := (List.cons_perm_iff_perm_erase.mp h).2
    have hmem := mem_removeEach_self l x hx
    have hr : q' ∈ perms (l.erase x) := ih (l.erase x) hq'
    rw [perms]
    have hlen : l.length = (l.erase x).length + 1 := by
      rw [List.length_erase_of_mem hx]
      have : 0 < l.length := List.length_pos.mpr (List.ne_nil_of_mem hx)
      omega
    rw [hlen, permsLen, List.mem_flatMap]
    refine ⟨(x, l.erase x), hmem, ?_⟩
    rw [List.mem_map]
    exact ⟨q', hr, rfl⟩

theorem self_mem_perms [DecidableEq α] (l : List α) : l ∈ perms l :=
  mem_perms_of_perm l l (List.Perm.refl l)

theorem perms_ne_nil [DecidableEq α] (l : List α) : perms l ≠ [] :=
  List.ne_nil_of_mem (self_mem_perms l)

/-! ### Helper lemmas: the permutation fold -/

theorem permStep_none (net : Network V) (start : V) (p0 : List V) (q : List (V × V)) :
    permStep net start (p0, none) q
      = (path_from_schedule q start,
          some (net.distance_from_path (path_from_schedule q start))) := rfl

theorem permStep_some (net : Network V) (start : V) (p0 : List V) (d0 : Nat)
    (q : List (V × V)) :
    permStep net start (p0, some d0) q
      = if net.distance_from_path (path_from_schedule q start) < d0
        then (path_from_schedule q start,
          some (net.distance_from_path (path_from_schedule q start)))
        else (p0, some d0) := rfl

theorem permFold_spec (net : Network V) (start : V) :
    ∀ (L : List (List (V × V))) (p0 : List V) (d0 : Nat),
      ∃ dm,
        (L.foldl (permStep net start) (p0, some d0)).2 = some dm ∧
        dm ≤ d0 ∧
        (∀ q ∈ L, dm ≤ net.distance_from_path (path_from_schedule q start)) ∧
        (((L.foldl (permStep net start) (p0, some d0)).1 = p0 ∧ dm = d0 ∧
            ∀ q ∈ L, d0 ≤ net.distance_from_path (path_from_schedule q start)) ∨
          ∃ i, ∃ hi : i < L.length,
            (L.foldl (permStep net start) (p0, some d0)).1
                = path_from_schedule (L.get ⟨i, hi⟩) start ∧
            dm = net.distance_from_path (path_from_schedule (L.get ⟨i, hi⟩) start) ∧
            dm < d0 ∧
            ∀ q ∈ L.take i,
              dm < net.distance_from_path (path_from_schedule q start)) := by
  intro L
  induction L with
  | nil =>
    intro p0 d0
    exact ⟨d0, rfl, le_refl _, by simp, Or.inl ⟨rfl, rfl, by simp⟩⟩
  | cons c L ih =>
    intro p0 d0
    rw [List.foldl_cons, permStep_some]
    by_cases hc : net.distance_from_path (path_from_schedule c start) < d0
    · rw [if_pos hc]
      obtain ⟨dm, h2, hled0, hmin, hcase⟩ :=
        ih (path_from_schedule c start)
          (net.distance_from_path (path_from_schedule c start))
      refine ⟨dm, h2, le_of_lt (lt_of_le_of_lt hled0 hc), ?_, ?_⟩
      · intro q hq
        rcases List.mem_cons.mp hq with rfl | hq
        · exact hled0
        · exact hmin q hq
      · rcases hcase with ⟨hp, hdm, _⟩ | ⟨i, hi, hp, hdm, hlt, htake⟩
        · refine Or.inr ⟨0, by simp, ?_, ?_, ?_, ?_⟩
          · exact hp
          · exact hdm
          · rw [hdm]; exact hc
          · intro q hq; simp at hq
        · refine Or.inr ⟨i + 1, by simpa using Nat.succ_lt_succ hi, ?_, ?_, ?_, ?_⟩
          · exact hp
          · exact hdm
          · exact lt_trans hlt hc
          · intro q hq
            rw [List.take_succ_cons] at hq
            rcases List.mem_cons.mp hq with rfl | hq
            · exact hlt
            · exact htake q hq
    · rw [if_neg hc]
      have hge : d0 ≤ net.distance_from_path (path_from_schedule c start) :=
        le_of_not_lt hc
      obtain ⟨dm, h2, hled0, hmin, hcase⟩ := ih p0 d0
      refine ⟨dm, h2, hled0, ?_, ?_⟩
      · intro q hq
        rcases List.mem_cons.mp hq with rfl | hq
        · exact le_trans hled0 hge
        · exact hmin q hq
      · rcases hcase with ⟨hp, hdm, hall⟩ | ⟨i, hi, hp, hdm, hlt, htake⟩
        · refine Or.inl ⟨hp, hdm, ?_⟩
          intro q hq
          rcases List.mem_cons.mp hq with rfl | hq
          · exact hge
          · exact hall q hq
        · refine Or.inr ⟨i + 1, by simpa using Nat.succ_lt_succ hi, hp, hdm,
            hlt, ?_⟩
          intro q hq
          rw [List.take_succ_cons] at hq
          rcases List.mem_cons.mp hq with rfl | hq
          · exact lt_of_lt_of_le hlt hge
          · exact htake q hq

theorem bestPermPath_spec (net : Network V) (start : V) (pool : List (V × V))
    (hne : pool ≠ []) :
    ∃ i, ∃ hi : i < (perms pool).length,
      bestPermPath net start pool
          = path_from_schedule ((perms pool).get ⟨i, hi⟩) start ∧
      (∀ q ∈ perms pool,
        net.distance_from_path
            (path_from_schedule ((perms pool).get ⟨i, hi⟩) start)
          ≤ net.distance_from_path (path_from_schedule q start)) ∧
      ∀ q ∈ (perms pool).take i,
        net.distance_from_path
            (path_from_schedule ((perms pool).get ⟨i, hi⟩) start)
          < net.distance_from_path (path_from_schedule q start) := by
  obtain ⟨c, L, hL⟩ := List.exists_cons_of_ne_nil (perms_ne_nil pool)
  rw [bestPermPath, hL, List.foldl_cons, permStep_none]
  obtain ⟨dm, _, _, hmin, hcase⟩ :=
    permFold_spec net start L (path_from_schedule c start)
      (net.distance_from_path (path_from_schedule c start))
  rcases hcase with ⟨hp, hdm, hall⟩ | ⟨i, hi, hp, hdm, hlt, htake⟩
  · refine ⟨0, by simp, hp, ?_, ?_⟩
    · intro q hq
      rcases List.mem_cons.mp hq with rfl | hq
      · exact le_refl _
      · exact hall q hq
    · intro q hq
      simp at hq
  · have hsucc : i + 1 < (c :: L).length := by
      simpa using Nat.succ_lt_succ hi
    have hget : (c :: L).get ⟨i + 1, hsucc⟩ = L.get ⟨i, hi⟩ := rfl
    refine ⟨i + 1, hsucc, ?_, ?_, ?_⟩
    · rw [hget]
      exact hp
    · rw [hget, ← hdm]
      intro q hq
      rcases List.mem_cons.mp hq with rfl | hq
      · exact le_of_lt hlt
      · exact hmin q hq
    · rw [hget, ← hdm, List.take_succ_cons]
      intro q hq
      rcases List.mem_cons.mp hq with rfl | hq
      · exact hlt
      · exact htake q hq

theorem bestPermPath_mem (net : Network V) (start : V) (pool : List (V × V))
    (hne : pool ≠ []) :
    ∃ q ∈ perms pool, bestPermPath net start pool = path_from_schedule q start := by
  obtain ⟨i, hi, heq, _, _⟩ := bestPermPath_spec net start pool hne
  exact ⟨(perms pool).get ⟨i, hi⟩, List.get_mem _ _ _, heq⟩

/-! ### Helper lemmas: the schedule loop -/

theorem scheduleStep_eq_circuit (net : Network V) (start : V)
    (pool sched : List (V × V)) (h : find_perfect_circuit net start pool ≠ []) :
    scheduleStep net start pool sched
      = consume (jobs_from_path (find_perfect_circuit net start pool)) pool sched := by
  rw [scheduleStep]
  rw [if_pos h]

theorem scheduleStep_eq_perm (net : Network V) (start : V)
    (pool sched : List (V × V)) (h : find_perfect_circuit net start pool = []) :
    scheduleStep net start pool sched
      = consume (jobs_from_path (bestPermPath net start pool)) pool sched := by
  rw [scheduleStep]
  rw [if_neg (by simp [h])]

theorem scheduleStep_union (net : Network V) (start : V)
    (pool sched : List (V × V)) :
    ((scheduleStep net start pool sched).1 : Multiset (V × V))
        + ((scheduleStep net start pool sched).2 : Multiset (V × V))
      = (pool : Multiset (V × V)) + (sched : Multiset (V × V)) := by
  by_cases hc : find_perfect_circuit net start pool = []
  · rw [scheduleStep_eq_perm net start pool sched hc]
    exact consume_union _ pool sched
  · rw [scheduleStep_eq_circuit net start pool sched hc]
    exact consume_union _ pool sched

theorem scheduleStep_progress (net : Network V) (start : V)
    (pool sched : List (V × V)) (hne : pool ≠ []) :
    (scheduleStep net start pool sched).1.length < pool.length := by
  by_cases hc : find_perfect_circuit net start pool = []
  · rw [scheduleStep_eq_perm net start pool sched hc]
    obtain ⟨q, hq, heq⟩ := bestPermPath_mem net start pool hne
    rw [heq]
    have hperm : q.Perm pool := perms_sound pool q hq
    have hle : (pool : Multiset (V × V))
        ≤ (jobs_from_path (path_from_schedule q start) : Multiset (V × V)) := by
      have h1 : (pool : Multiset (V × V)) = (q : Multiset (V × V)) :=
        (Multiset.coe_eq_coe.mpr hperm).symm
      rw [h1]
      exact jobs_le_pairs q start
    rw [consume_empties _ pool sched hle]
    exact List.length_pos.mpr hne
  · obtain ⟨c, p, heq, hp, hhead, hmem, _, _⟩ := fpc_shape net start pool hc
    rw [scheduleStep_eq_circuit net start pool sched hc, heq]
    obtain ⟨hd, tl, hptl⟩ := List.exists_cons_of_ne_nil hp
    have hhd : hd = c := by
      rw [hptl] at hhead
      simpa using hhead
    subst hhd
    rw [hptl, jobs_from_path_cons_cons]
    exact consume_pool_lt (start, hd) _ pool sched hmem

theorem scheduleAux_nil (net : Network V) (start : V) (fuel : Nat)
    (sched : List (V × V)) : scheduleAux net start fuel [] sched = some sched := by
  cases fuel <;> rfl

theorem scheduleAux_zero (net : Network V) (start : V) (j : V × V)
    (pool sched : List (V × V)) :
    scheduleAux net start 0 (j :: pool) sched = none := rfl

theorem scheduleAux_cons (net : Network V) (start : V) (fuel : Nat) (j : V × V)
    (pool sched : List (V × V)) :
    scheduleAux net start (fuel + 1) (j :: pool) sched
      = scheduleAux net start fuel (scheduleStep net start (j :: pool) sched).1
          (scheduleStep net start (j :: pool) sched).2 := rfl

theorem scheduleAux_isSome (net : Network V) (start : V) :
    ∀ (fuel : Nat) (pool sched : List (V × V)), pool.length ≤ fuel →
      (scheduleAux net start fuel pool sched).isSome = true := by
  intro fuel
  induction fuel with
  | zero =>
    intro pool sched hlen
    have : pool = [] := List.length_eq_zero.mp (Nat.le_zero.mp hlen)
    subst this
    rw [scheduleAux_nil]
    rfl
  | succ fuel ih =>
    intro pool sched hlen
    cases pool with
    | nil =>
      rw [scheduleAux_nil]
      rfl
    | cons j rest =>
      rw [scheduleAux_cons]
      apply ih
      have hprog := scheduleStep_progress net start (j :: rest) sched (by simp)
      simp only [List.length_cons] at hlen hprog
      omega

theorem scheduleAux_union (net : Network V) (start : V) :
    ∀ (fuel : Nat) (pool sched s : List (V × V)),
      scheduleAux net start fuel pool sched = some s →
      (s : Multiset (V × V))
        = (pool : Multiset (V × V)) + (sched : Multiset (V × V)) := by
  intro fuel
  induction fuel with
  | zero =>
    intro pool sched s h
    cases pool with
    | nil =>
      rw [scheduleAux_nil] at h
      obtain rfl := Option.some.inj h
      simp
    | cons j rest =>
      rw [scheduleAux_zero] at h
      cases h
  | succ fuel ih =>
    intro pool sched s h
    cases pool with
    | nil =>
      rw [scheduleAux_nil] at h
      obtain rfl := Option.some.inj h
      simp
    | cons j rest =>
      rw [scheduleAux_cons] at h
      rw [ih _ _ _ h]
      exact scheduleStep_union net start (j :: rest) sched

theorem scheduleTrackedAux_eq (net : Network V) (start : V) :
    ∀ (fuel : Nat) (caller pool sched : List (V × V)),
      scheduleTrackedAux net start fuel ⟨caller, pool, sched⟩
        = (scheduleAux net start fuel pool sched).map
            fun s => PyState.mk caller [] s := by
  intro fuel
  induction fuel with
  | zero =>
    intro caller pool sched
    cases pool with
    | nil => rfl
    | cons j rest => rfl
  | succ fuel ih =>
    intro caller pool sched
    cases pool with
    | nil => rfl
    | cons j rest =>
      rw [scheduleAux_cons]
      have hstep : scheduleTrackedAux net start (fuel + 1) ⟨caller, j :: rest, sched⟩
          = scheduleTrackedAux net start fuel ⟨caller,
              (scheduleStep net start (j :: rest) sched).1,
              (scheduleStep net start (j :: rest) sched).2⟩ := rfl
      rw [hstep, ih]

theorem scheduleAux_nodes_irrel (ns ns' : List V) (sp : V → V → Nat × List V)
    (dfp : List V → Nat) (start : V) :
    ∀ (fuel : Nat) (pool sched : List (V × V)),
      scheduleAux ⟨ns, sp, dfp⟩ start fuel pool sched
        = scheduleAux ⟨ns', sp, dfp⟩ start fuel pool sched := by
  have hstep : ∀ pool sched : List (V × V),
      scheduleStep ⟨ns, sp, dfp⟩ start pool sched
        = scheduleStep ⟨ns', sp, dfp⟩ start pool sched := fun _ _ => rfl
  intro fuel
  induction fuel with
  | zero => intro pool sched; cases pool <;> rfl
  | succ fuel ih =>
    intro pool sched
    cases pool with
    | nil => rfl
    | cons j rest =>
      rw [scheduleAux_cons, scheduleAux_cons, hstep]
      exact ih _ _

/-! ### Claim theorems -/

/-- C1 (amended): the loop body preserves the multiset union of the pending
pool and the schedule built so far, so on termination the returned schedule
is a multiset-equal reordering of the input jobs (no loss, duplication or
invention).  The pool and the schedule are multiset-disjoint at every point
satisfying the union invariant provided the input jobs are pairwise distinct;
with duplicate jobs the same pair can occur in both (see the
counterexample). -/
theorem schedule_leg_conservation (net : Network V) (start : V) :
    (∀ pool sched : List (V × V),
      ((scheduleStep net start pool sched).1 : Multiset (V × V))
          + ((scheduleStep net start pool sched).2 : Multiset (V × V))
        = (pool : Multiset (V × V)) + (sched : Multiset (V × V))) ∧
    (∀ jobs s : List (V × V), schedule net start jobs = some s →
      (s : Multiset (V × V)) = (jobs : Multiset (V × V))) ∧
    (∀ jobs pool sched : List (V × V),
      (pool : Multiset (V × V)) + (sched : Multiset (V × V))
          = (jobs : Multiset (V × V)) →
      jobs.Nodup →
      (pool : Multiset (V × V)) ∩ (sched : Multiset (V × V)) = 0) := by
  refine ⟨scheduleStep_union net start, ?_, ?_⟩
  · intro jobs s h
    have := scheduleAux_union net start jobs.length jobs [] s h
    simpa using this
  · intro jobs pool sched hinv hnodup
    rw [Multiset.ext]
    intro a
    rw [Multiset.count_inter, Multiset.count_zero]
    have hc : Multiset.count a (pool : Multiset (V × V))
        + Multiset.count a (sched : Multiset (V × V))
        = Multiset.count a (jobs : Multiset (V × V)) := by
      rw [← Multiset.count_add, hinv]
    have hj : Multiset.count a (jobs : Multiset (V × V)) ≤ 1 := by
      rw [Multiset.coe_count]
      exact List.nodup_iff_count_le_one.mp hnodup a
    omega

/-- Witness for C1: the loop body on pool `[(A,B)]` preserves the union; the
schedule produced from Example 1's four legs is a multiset reordering of
them; a pool and schedule satisfying the invariant with distinct jobs are
disjoint. -/
theorem schedule_leg_conservation_witness :
    (((scheduleStep net3 0 [(0, 1)] []).1 : Multiset (Nat × Nat))
        + ((scheduleStep net3 0 [(0, 1)] []).2 : Multiset (Nat × Nat))
      = (([((0 : Nat), (1 : Nat))] : List (Nat × Nat)) : Multiset (Nat × Nat))
        + (([] : List (Nat × Nat)) : Multiset (Nat × Nat))) ∧
    ((([(0, 1), (1, 0), (0, 2), (2, 0)] : List (Nat × Nat)) : Multiset (Nat × Nat))
      = (jobs4 : Multiset (Nat × Nat))) ∧
    (jobs4 : Multiset (Nat × Nat)) ∩ (([] : List (Nat × Nat)) : Multiset (Nat × Nat)) = 0 := by
  refine ⟨(schedule_leg_conservation net3 0).1 [(0, 1)] [], ?_, ?_⟩
  · exact (schedule_leg_conservation net3 0).2.1 jobs4
      [(0, 1), (1, 0), (0, 2), (2, 0)] (by decide)
  · exact (schedule_leg_conservation net3 0).2.2 jobs4 jobs4 [] (by decide) (by decide)

/-- Counterexample to C1 as stated: with the duplicate-containing input
`[(A,B),(B,A),(A,B)]` from home `A`, after the first while-loop iteration the
pool is `[(A,B)]` and the schedule `[(A,B),(B,A)]`, whose multiset
intersection is non-empty — the pool and schedule are not disjoint as
multisets at that point of the execution. -/
theorem schedule_pool_and_schedule_overlap :
    scheduleStep net3 0 [(0, 1), (1, 0), (0, 1)] []
        = ([(0, 1)], [(0, 1), (1, 0)]) ∧
    schedule net3 0 [(0, 1), (1, 0), (0, 1)]
        = scheduleAux net3 0 2 [(0, 1)] [(0, 1), (1, 0)] ∧
    (([((0 : Nat), (1 : Nat))] : List (Nat × Nat)) : Multiset (Nat × Nat))
        ∩ (([(0, 1), (1, 0)] : List (Nat × Nat)) : Multiset (Nat × Nat)) ≠ 0 := by
  exact ⟨by decide, by decide, by decide⟩

/-- C2: every while-loop iteration strictly shrinks the pending pool (the
circuit branch consumes at least the seed leg from home, the permutation
branch consumes every remaining job), so `schedule` — whose fuel is `|jobs|`,
one unit per top-level iteration — always returns a result: the loop
terminates within `|jobs|` iterations. -/
theorem schedule_terminates (net : Network V) (start : V) :
    (∀ pool sched : List (V × V), pool ≠ [] →
      (scheduleStep net start pool sched).1.length < pool.length) ∧
    ∀ jobs : List (V × V), (schedule net start jobs).isSome = true := by
  refine ⟨fun pool sched h => scheduleStep_progress net start pool sched h, ?_⟩
  intro jobs
  exact scheduleAux_isSome net start jobs.length jobs [] (le_refl _)

/-- Witness for C2 on a one-job pool. -/
theorem schedule_terminates_witness :
    (scheduleStep net3 0 [(0, 1)] []).1.length < 1 ∧
    (schedule net3 0 [(0, 1)]).isSome = true :=
  ⟨(schedule_terminates net3 0).1 [(0, 1)] [] (by decide),
   (schedule_terminates net3 0).2 [(0, 1)]⟩

/-- C3 (amended): `schedule` performs no location validation whatsoever: its
result never depends on the network's node set, and with a start location
absent from the network it still returns successfully (the empty schedule
for an empty job list) instead of failing with an `InvalidLocation`
condition. -/
theorem schedule_no_location_validation (start : V) :
    (∀ (net : Network V) (ns : List V) (jobs : List (V × V)),
      schedule { net with nodes := ns } start jobs = schedule net start jobs) ∧
    ∀ net : Network V, start ∉ net.nodes → schedule net start [] = some [] := by
  constructor
  · intro net ns jobs
    cases net with
    | mk ns0 sp dfp =>
      exact scheduleAux_nodes_irrel ns ns0 sp dfp start jobs.length jobs []
  · intro net h
    rfl

/-- Witness for C3 (amended): on Example 1's network the schedule is unchanged
when the node set is replaced, and an invalid start with no jobs yields the
empty schedule. -/
theorem schedule_no_location_validation_witness :
    schedule { net3 with nodes := [5] } 0 jobs4 = schedule net3 0 jobs4 ∧
    ((5 : Nat) ∉ net3.nodes ∧ schedule net3 5 ([] : List (Nat × Nat)) = some []) :=
  ⟨(schedule_no_location_validation 0).1 net3 [5] jobs4,
   by decide,
   (schedule_no_location_validation 5).2 net3 (by decide)⟩

/-- Counterexample to C3 as stated: with start `5`, a location not in the
network, `schedule` does not fail with any `InvalidLocation` condition — it
returns the (empty) schedule successfully. -/
theorem schedule_invalid_start_returns :
    (5 : Nat) ∉ net3.nodes ∧ schedule net3 5 ([] : List (Nat × Nat)) = some [] :=
  ⟨by decide, rfl⟩

/-- C4: for every graph, start and non-empty job list, a non-empty path
returned by `find_perfect_circuit` starts and ends at `start`, and each of
its consecutive location pairs is the `(origin, destination)` pair of some
pending job. -/
theorem find_perfect_circuit_correct (net : Network V) (start : V)
    (jobs : List (V × V)) (hjobs : jobs ≠ [])
    (h : find_perfect_circuit net start jobs ≠ []) :
    (find_perfect_circuit net start jobs).head? = some start ∧
    (find_perfect_circuit net start jobs).getLast? = some start ∧
    ∀ e ∈ jobs_from_path (find_perfect_circuit net start jobs), e ∈ jobs := by
  obtain ⟨c, p, heq, hp, hhead, hmem, hlast, hpairs⟩ := fpc_shape net start jobs h
  rw [heq]
  obtain ⟨hd, tl, hptl⟩ := List.exists_cons_of_ne_nil hp
  refine ⟨by simp, ?_, ?_⟩
  · rw [hptl, List.getLast?_cons_cons]
    rw [hptl] at hlast
    exact hlast
  · exact hpairs

/-- Witness for C4 on Example 1's network and legs, where the circuit found
is `A→B→A`. -/
theorem find_perfect_circuit_correct_witness :
    ([0, 1, 0] : List Nat).head? = some 0 ∧
    ([0, 1, 0] : List Nat).getLast? = some 0 ∧
    ∀ e ∈ jobs_from_path ([0, 1, 0] : List Nat), e ∈ jobs4 := by
  have h := find_perfect_circuit_correct net3 0 jobs4 (by decide) (by decide)
  have heq : find_perfect_circuit net3 0 jobs4 = [0, 1, 0] := by decide
  rwa [heq] at h

/-- C5: whenever the permutation fallback runs on a non-empty pending pool,
the selected path's total distance is less than or equal to that of the path
implied by every permutation of the exact pending set, and the selected one
is the first minimum in `itertools.permutations` enumeration order — every
earlier enumerated permutation has strictly larger distance. -/
theorem permutation_fallback_optimal (net : Network V) (start : V)
    (pool : List (V × V)) (hpool : pool ≠ []) :
    ∃ i, ∃ hi : i < (perms pool).length,
      bestPermPath net start pool
          = path_from_schedule ((perms pool).get ⟨i, hi⟩) start ∧
      (∀ q : List (V × V), q.Perm pool →
        net.distance_from_path (bestPermPath net start pool)
          ≤ net.distance_from_path (path_from_schedule q start)) ∧
      ∀ q ∈ (perms pool).take i,
        net.distance_from_path (bestPermPath net start pool)
          < net.distance_from_path (path_from_schedule q start) := by
  obtain ⟨i, hi, h1, h2, h3⟩ := bestPermPath_spec net start pool hpool
  refine ⟨i, hi, h1, ?_, ?_⟩
  · rw [h1]
    intro q hq
    exact h2 q (mem_perms_of_perm q pool hq)
  · rw [h1]
    exact h3

/-- Witness for C5 on the single-job pool `[(A,B)]`. -/
theorem permutation_fallback_optimal_witness :
    ∃ i, ∃ hi : i < (perms [((0 : Nat), (1 : Nat))]).length,
      bestPermPath net3 0 [(0, 1)]
          = path_from_schedule ((perms [((0 : Nat), (1 : Nat))]).get ⟨i, hi⟩) 0 ∧
      (∀ q : List (Nat × Nat), q.Perm [(0, 1)] →
        net3.distance_from_path (bestPermPath net3 0 [(0, 1)])
          ≤ net3.distance_from_path (path_from_schedule q 0)) ∧
      ∀ q ∈ (perms [((0 : Nat), (1 : Nat))]).take i,
        net3.distance_from_path (bestPermPath net3 0 [(0, 1)])
          < net3.distance_from_path (path_from_schedule q 0) :=
  permutation_fallback_optimal net3 0 [(0, 1)] (by decide)

/-- C6 (amended): the implied travel path of an ordering is built by walking
the ordering and, whenever the next job's origin differs from the current
last location, appending that origin directly — a single location, not the
Network Oracle's shortest-path node sequence — before appending the job's
destination.  Hence the path starts at `start`, contains only `start` and
endpoints of the given jobs (no connector nodes are inserted), and every
job's pair occurs among the path's consecutive pairs. -/
theorem path_from_schedule_direct_hops (jobs : List (V × V)) (start : V) :
    (path_from_schedule jobs start).head? = some start ∧
    (∀ x ∈ path_from_schedule jobs start,
      x = start ∨ ∃ j ∈ jobs, x = j.1 ∨ x = j.2) ∧
    (jobs : Multiset (V × V))
      ≤ (jobs_from_path (path_from_schedule jobs start) : Multiset (V × V)) := by
  refine ⟨rfl, ?_, jobs_le_pairs jobs start⟩
  intro x hx
  exact mem_pfs jobs start x hx

/-- Witness for C6 (amended): on the job list `[(C,A)]` from home `A`, the
location `C` of the built path is a job endpoint. -/
theorem path_from_schedule_direct_hops_witness :
    (2 : Nat) = 0 ∨ ∃ j ∈ [((2 : Nat), (0 : Nat))], (2 : Nat) = j.1 ∨ (2 : Nat) = j.2 :=
  (path_from_schedule_direct_hops [((2 : Nat), (0 : Nat))] 0).2.1 2 (by decide)

/-- Counterexample to C6 as stated: on the line network `0 — 1 — 2`, for the
ordering `[(2,0)]` from start `0` the code builds `[0,2,0]` (appending the
origin `2` directly), while inserting the Oracle's shortest-path node
sequence `0→1→2` as the spec describes would build `[0,1,2,0]`. -/
theorem path_no_connector_expansion :
    path_from_schedule [((2 : Nat), (0 : Nat))] 0 = [0, 2, 0] ∧
    path_from_schedule_spec netLine [((2 : Nat), (0 : Nat))] 0 = [0, 1, 2, 0] ∧
    path_from_schedule [((2 : Nat), (0 : Nat))] 0
      ≠ path_from_schedule_spec netLine [((2 : Nat), (0 : Nat))] 0 :=
  ⟨by decide, by decide, by decide⟩

/-- C7 (amended): on Example 1's network (complete unit-weight graph on
`{A,B,C}` encoded `0,1,2`) with legs `[(A,B),(A,C),(B,A),(C,A)]` and home
`A`, the Circuit Finder succeeds on the first Schedule Assembler iteration,
but its circuit is `A→B→A`, so the first batch consumes exactly the two legs
`(A,B),(B,A)` — not all four; a second circuit batch `A→C→A` consumes the
remaining two, and the full schedule is `[(A,B),(B,A),(A,C),(C,A)]`. -/
theorem example1_two_circuit_batches :
    find_perfect_circuit net3 0 jobs4 = [0, 1, 0] ∧
    scheduleStep net3 0 jobs4 [] = ([(0, 2), (2, 0)], [(0, 1), (1, 0)]) ∧
    find_perfect_circuit net3 0 [(0, 2), (2, 0)] = [0, 2, 0] ∧
    scheduleStep net3 0 [(0, 2), (2, 0)] [(0, 1), (1, 0)]
        = ([], [(0, 1), (1, 0), (0, 2), (2, 0)]) ∧
    schedule net3 0 jobs4 = some [(0, 1), (1, 0), (0, 2), (2, 0)] :=
  ⟨by decide, by decide, by decide, by decide, by decide⟩

/-- Counterexample to C7 as stated: the first batch on Example 1 consumes
only two of the four legs, not all of them in one circuit batch. -/
theorem example1_first_batch_not_all_legs :
    find_perfect_circuit net3 0 jobs4 = [0, 1, 0] ∧
    scheduleStep net3 0 jobs4 [] = ([(0, 2), (2, 0)], [(0, 1), (1, 0)]) ∧
    (scheduleStep net3 0 jobs4 []).2.length ≠ 4 :=
  ⟨by decide, by decide, by decide⟩

/-- C8: the auxiliary graph built by `find_perfect_circuit` has exactly one
edge per distinct `(origin, destination)` pair of the pending jobs — in
first-occurrence order, each weighted with the Network Oracle's shortest-path
distance between its endpoints — and the Oracle's `shortest_path` is queried
exactly once per distinct pair (so at most once per pair, duplicates adding
no query and no edge). -/
theorem auxiliary_graph_distinct_edges (net : Network V) (jobs : List (V × V)) :
    (buildG net jobs).edges = (distinctPairs jobs).map (edgeOf net) ∧
    (buildGT net jobs).1 = buildG net jobs ∧
    (buildGT net jobs).2 = distinctPairs jobs ∧
    (distinctPairs jobs).Nodup ∧
    ∀ ab : V × V, ab ∈ distinctPairs jobs ↔ ab ∈ jobs := by
  refine ⟨buildG_edges net jobs, (buildG_eq_fst net jobs).symm, ?_,
    nodup_dedupFrom [] jobs List.nodup_nil, mem_distinctPairs jobs⟩
  rw [buildGT_eq]

/-- C9: `schedule` operates on a working copy of the caller's job list (the
`jobs[:]` on source line 176); all removals act on that copy, so the
caller's list still holds exactly the same elements in the same order when
the call returns, alongside the computed schedule. -/
theorem schedule_preserves_caller_jobs (net : Network V) (start : V)
    (jobs : List (V × V)) :
    ∃ st : PyState V, scheduleTracked net start jobs = some st ∧
      st.jobs_caller = jobs ∧ schedule net start jobs = some st.new_schedule := by
  have hsome := scheduleAux_isSome net start jobs.length jobs [] (le_refl _)
  obtain ⟨s, hs⟩ := Option.isSome_iff_exists.mp hsome
  refine ⟨⟨jobs, [], s⟩, ?_, rfl, hs⟩
  rw [scheduleTracked, scheduleTrackedAux_eq, hs]
  rfl

/-- C10: `find_perfect_circuit` returns the empty list `[]` (a falsy value,
not a distinguished `None`) both when no pending job departs from `start`
and when every candidate first step fails to reach `start` by breadth-first
search in the auxiliary graph; and whenever it returns `[]`, the caller's
truthiness test routes the iteration to the permutation fallback. -/
theorem no_circuit_returns_empty (net : Network V) (start : V)
    (pool sched : List (V × V)) :
    ((∀ j ∈ pool, j.1 ≠ start) → find_perfect_circuit net start pool = []) ∧
    ((∀ a ∈ new_starts_of start pool,
        ((buildG net pool).breadth_first_search a start).2 = []) →
      find_perfect_circuit net start pool = []) ∧
    (find_perfect_circuit net start pool = [] →
      scheduleStep net start pool sched
        = consume (jobs_from_path (bestPermPath net start pool)) pool sched) := by
  refine ⟨?_, ?_, fun h => scheduleStep_eq_perm net start pool sched h⟩
  · intro h
    rw [find_perfect_circuit, new_starts_eq_nil h]
    rfl
  · intro h
    rw [find_perfect_circuit]
    exact firstCircuit_eq_nil _ _ _ h

/-- Witness for C10: a job list with no leg out of home, one whose only
candidate cannot reach home by BFS, and the resulting fallback routing. -/
theorem no_circuit_returns_empty_witness :
    find_perfect_circuit net3 0 [(1, 2)] = [] ∧
    find_perfect_circuit net3 0 [(0, 1)] = [] ∧
    scheduleStep net3 0 [(0, 1)] []
      = consume (jobs_from_path (bestPermPath net3 0 [(0, 1)])) [(0, 1)] [] :=
  ⟨(no_circuit_returns_empty net3 0 [(1, 2)] []).1 (by decide),
   (no_circuit_returns_empty net3 0 [(0, 1)] []).2.1 (by decide),
   (no_circuit_returns_empty net3 0 [(0, 1)] []).2.2 (by decide)⟩
